import Mathlib

/-!
# Verification of `webrtcperf-vmaf-utils`

Shallow embedding of the transcoding pipeline in `src/encoder.rs` and
`src/transcoder.rs`, together with theorems settling the specification
claims about it.

Conventions of the embedding:
* Rust `&str` values become Lean `String` / `List Char`.
* The two `regex` patterns used by the program are embedded as explicit
  backtracking matchers over `List Char`, following the crate's
  leftmost-match, greedy-quantifier semantics.  `\w` is modelled as
  ASCII alphanumeric or underscore, and `.` as any character other
  than a newline (the paths and OCR strings involved are ASCII).
* Floating point quantities (`f32`/`f64` band heights, seconds) are
  modelled as exact rationals `ℚ`; every value the program computes with
  them is small enough that the float rounding steps are value-preserving
  except for the final `round`/truncate, which is modelled explicitly.
* The crossbeam channel is modelled as a FIFO queue `List String`;
  `try_recv` pops the head when one is present.
-/

namespace WebrtcperfVmaf

/-- Transcoding mode of `ffmpeg_encoder` (`transcoder::Mode` as used by
`src/encoder.rs`): `Watermark` burns the overlay in, `Process` (Recognize)
OCR-recovers it. -/
inductive Mode where
  | Watermark
  | Process
deriving DecidableEq, Repr

/-- Regex class `\w` of the `regex` crate, restricted to ASCII: letter,
digit or underscore. -/
def isWordChar (c : Char) : Bool :=
  c.isAlphanum || c = '_'

/-- Regex `.` (with default flags): any character except a newline. -/
def isDotChar (c : Char) : Bool :=
  c ≠ '\n'

/-- Matcher core for the output-path pattern `(^.+)\.\w+$` of
`src/encoder.rs` line 37, with the leading `.+` allowed to be empty:
given the characters after the anchored start, find the decomposition
`a ++ '.' :: b` in which `b` is a nonempty run of word characters
reaching the end of the string, `a` contains no newline, and `a` is as
long as possible (the greedy `.+` takes the last such dot). -/
def extSplit0 : List Char → Option (List Char × List Char)
  | [] => none
  | c :: rest =>
    match if isDotChar c then extSplit0 rest else none with
    | some (a, b) => some (c :: a, b)
    | none =>
      if c = '.' && rest ≠ [] && rest.all isWordChar then
        some ([], rest)
      else
        none

/-- The full pattern `(^.+)\.\w+$`: as `extSplit0`, but the capture
group `(^.+)` must be nonempty. Returns `(group1, extension)` on a
match. -/
def extMatchSplit : List Char → Option (List Char × List Char)
  | [] => none
  | c :: rest =>
    if isDotChar c then
      match extSplit0 rest with
      | some (a, b) => some (c :: a, b)
      | none => none
    else
      none

/-- `Regex::replace` of pattern `(^.+)\.\w+$` with a replacement string
beginning with `$1`: on a match, `$1` is substituted by the capture
group; with no match the input is returned unchanged. -/
def regexReplaceExt (input repl : String) : String :=
  match extMatchSplit input.toList with
  | some (a, _) => String.mk a ++ repl.drop 2
  | none => input

/-- Output-path derivation of `ffmpeg_encoder` (`src/encoder.rs` lines
35–40): `replacement` is `"$1.ivf"` in `Watermark` mode and `"$1.r.ivf"`
in `Process` mode, applied to the pattern `(^.+)\.\w+$`. -/
def ffmpegOutputFile (inputFile : String) (mode : Mode) : String :=
  let withWatermark := mode = Mode.Watermark
  let replacement := if withWatermark then "$1.ivf" else "$1.r.ivf"
  regexReplaceExt inputFile replacement

/-- Semantic characterisation of "the input path matches
`(^.+)\.\w+$`": it decomposes as `base.ext` with `base` nonempty and
newline-free and `ext` a nonempty run of word characters. -/
def HasExt (input : String) : Prop :=
  ∃ a b : List Char, input.toList = a ++ '.' :: b ∧ a ≠ [] ∧
    a.all isDotChar = true ∧ b ≠ [] ∧ b.all isWordChar = true

/-! ## Lemmas about the output-path matcher -/

lemma not_dot_of_isWordChar {c : Char} (h : isWordChar c = true) : c ≠ '.' := by
  rintro rfl
  exact absurd h (by decide)

lemma extSplit0_eq_none_of_no_dot :
    ∀ {l : List Char}, (∀ c ∈ l, c ≠ '.') → extSplit0 l = none := by
  intro l
  induction l with
  | nil => intro _; rfl
  | cons c rest ih =>
    intro h
    have hrest : extSplit0 rest = none := ih fun d hd => h d (List.mem_cons_of_mem _ hd)
    have hc : c ≠ '.' := h c (List.mem_cons_self _ _)
    simp [extSplit0, hrest, hc]

lemma extSplit0_append {a b : List Char} (ha : a.all isDotChar = true)
    (hb : b ≠ []) (hw : b.all isWordChar = true) :
    extSplit0 (a ++ '.' :: b) = some (a, b) := by
  induction a with
  | nil =>
    have hnone : extSplit0 b = none :=
      extSplit0_eq_none_of_no_dot fun c hc =>
        not_dot_of_isWordChar (List.all_eq_true.mp hw c hc)
    simp [extSplit0, hnone, isDotChar, hb, hw]
  | cons c a ih =>
    rw [List.all_cons, Bool.and_eq_true] at ha
    have := ih ha.2
    simp [extSplit0, ha.1, this]

lemma extMatchSplit_append {a b : List Char} (hne : a ≠ [])
    (ha : a.all isDotChar = true) (hb : b ≠ []) (hw : b.all isWordChar = true) :
    extMatchSplit (a ++ '.' :: b) = some (a, b) := by
  cases a with
  | nil => exact absurd rfl hne
  | cons c a =>
    rw [List.all_cons, Bool.and_eq_true] at ha
    have := extSplit0_append ha.2 hb hw
    simp [extMatchSplit, ha.1, this]

lemma extSplit0_sound :
    ∀ {l a b : List Char}, extSplit0 l = some (a, b) →
      l = a ++ '.' :: b ∧ a.all isDotChar = true ∧ b ≠ [] ∧ b.all isWordChar = true := by
  intro l
  induction l with
  | nil => intro a b h; simp [extSplit0] at h
  | cons c rest ih =>
    intro a b h
    rw [extSplit0] at h
    rcases hs : (if isDotChar c then extSplit0 rest else none) with _ | ⟨a', b'⟩
    · rw [hs] at h
      by_cases hc : (decide (c = '.') && decide (rest ≠ []) && rest.all isWordChar) = true
      · rw [if_pos hc] at h
        simp only [Bool.and_eq_true, decide_eq_true_eq] at hc
        obtain ⟨⟨hc1, hc2⟩, hc3⟩ := hc
        simp only [Option.some.injEq, Prod.mk.injEq] at h
        obtain ⟨rfl, rfl⟩ := h
        subst hc1
        exact ⟨rfl, rfl, hc2, hc3⟩
      · rw [if_neg hc] at h
        simp at h
    · rw [hs] at h
      simp only [Option.some.injEq, Prod.mk.injEq] at h
      obtain ⟨rfl, rfl⟩ := h
      by_cases hd : isDotChar c
      · rw [if_pos hd] at hs
        obtain ⟨hl, ha, hb, hw⟩ := ih hs
        refine ⟨by rw [hl]; rfl, ?_, hb, hw⟩
        simp [List.all_cons, hd, ha]
      · rw [if_neg hd] at hs
        exact absurd hs (by simp)

lemma extMatchSplit_sound {l a b : List Char} (h : extMatchSplit l = some (a, b)) :
    l = a ++ '.' :: b ∧ a ≠ [] ∧ a.all isDotChar = true ∧ b ≠ [] ∧
      b.all isWordChar = true := by
  cases l with
  | nil => simp [extMatchSplit] at h
  | cons c rest =>
    rw [extMatchSplit] at h
    by_cases hd : isDotChar c = true
    · rw [if_pos hd] at h
      rcases hs : extSplit0 rest with _ | ⟨a', b'⟩
      · rw [hs] at h; simp at h
      · rw [hs] at h
        simp only [Option.some.injEq, Prod.mk.injEq] at h
        obtain ⟨rfl, rfl⟩ := h
        obtain ⟨hl, ha, hb, hw⟩ := extSplit0_sound hs
        exact ⟨by rw [hl]; rfl, by simp, by simp [List.all_cons, hd, ha], hb, hw⟩
    · rw [if_neg hd] at h; simp at h

lemma toList_append (s t : String) : (s ++ t).toList = s.toList ++ t.toList :=
  String.data_append s t

/-! ## Claim C1: output-path derivation -/

/-- Claim C1, as stated, is false: the claim's own example says Watermark
mode maps `foo.bar.mp4` to `foo.bar.w.ivf`, but `ffmpeg_encoder` uses the
replacement `"$1.ivf"` in Watermark mode, producing `foo.bar.ivf` (no
`w` marker). -/
theorem c1_watermark_suffix_counterexample :
    ffmpegOutputFile "foo.bar.mp4" Mode.Watermark = "foo.bar.ivf" ∧
    ffmpegOutputFile "foo.bar.mp4" Mode.Watermark ≠ "foo.bar.w.ivf" := by
  constructor
  · rfl
  · decide

/-- Claim C1, amended: for every input path of the shape
`<base>.<extension>` (base nonempty without newlines, extension a
nonempty run of word characters), Watermark mode derives `<base>.ivf`
(the bare suffix `.ivf` is substituted for the extension, with no
watermark marker) and Process (Recognize) mode derives `<base>.r.ivf`;
the derivation is a pure function of the input path and the mode. -/
theorem c1_output_path_amended (base ext : String)
    (hbase : base.toList ≠ []) (hbdot : base.toList.all isDotChar = true)
    (hext : ext.toList ≠ []) (hw : ext.toList.all isWordChar = true) :
    ffmpegOutputFile (base ++ "." ++ ext) Mode.Watermark = base ++ ".ivf" ∧
    ffmpegOutputFile (base ++ "." ++ ext) Mode.Process = base ++ ".r.ivf" := by
  have hlist : (base ++ "." ++ ext).toList = base.toList ++ '.' :: ext.toList := by
    rw [toList_append, toList_append]
    simp
  have hm := extMatchSplit_append hbase hbdot hext hw
  constructor
  · show regexReplaceExt (base ++ "." ++ ext) "$1.ivf" = base ++ ".ivf"
    rw [regexReplaceExt, hlist, hm]
    rfl
  · show regexReplaceExt (base ++ "." ++ ext) "$1.r.ivf" = base ++ ".r.ivf"
    rw [regexReplaceExt, hlist, hm]
    rfl

/-- Witness for `c1_output_path_amended` at `base = "foo.bar"`,
`ext = "mp4"`. -/
theorem c1_output_path_amended_witness :
    ffmpegOutputFile ("foo.bar" ++ "." ++ "mp4") Mode.Watermark = "foo.bar" ++ ".ivf" ∧
    ffmpegOutputFile ("foo.bar" ++ "." ++ "mp4") Mode.Process = "foo.bar" ++ ".r.ivf" :=
  c1_output_path_amended "foo.bar" "mp4" (by decide) (by decide) (by decide) (by decide)

/-! ## Claim C10: inputs without an extension pass through unchanged -/

/-- Claim C10: when the input path does not decompose as
`<base>.<word-extension>` (the pattern `(^.+)\.\w+$` finds no match),
the derived output path is the input path itself, in either mode, so the
output container is opened at the input file's own path. -/
theorem c10_no_ext_output_unchanged (input : String) (mode : Mode)
    (h : ¬ HasExt input) :
    ffmpegOutputFile input mode = input := by
  rcases hm : extMatchSplit input.toList with _ | ⟨a, b⟩
  · have hm' : extMatchSplit input.data = none := hm
    cases mode <;> simp [ffmpegOutputFile, regexReplaceExt, hm']
  · exfalso
    obtain ⟨hl, hne, ha, hb, hw⟩ := extMatchSplit_sound hm
    exact h ⟨a, b, hl, hne, ha, hb, hw⟩

/-- Witness for `c10_no_ext_output_unchanged` at the dot-free path
`"file"`. -/
theorem c10_no_ext_output_unchanged_witness :
    ffmpegOutputFile "file" Mode.Watermark = "file" :=
  c10_no_ext_output_unchanged "file" Mode.Watermark (by
    rintro ⟨a, b, hab, -, -, -, -⟩
    have hmem : '.' ∈ "file".toList := by
      rw [hab]
      exact List.mem_append_right _ (List.mem_cons_self _ _)
    exact absurd hmem (by decide))

/-! ## Claim C6: stream mapping -/

/-- Media type of an input stream, as far as the stream-mapping loop of
`ffmpeg_encoder` inspects `ist.parameters().medium()`. -/
inductive MediaType where
  | Video
  | Audio
  | Subtitle
  | Other
deriving DecidableEq, Repr

/-- Stream-mapping loop of `ffmpeg_encoder` (`src/encoder.rs` lines
63–89): every non-video input stream gets the skip sentinel `-1`
(`stream_mapping[ist_index] = -1; continue`); every video stream gets
the current `ost_index`, which is then incremented. -/
def streamMappingAux (ostIndex : ℤ) : List MediaType → List ℤ
  | [] => []
  | istMedium :: rest =>
    if istMedium ≠ MediaType.Video then
      -1 :: streamMappingAux ostIndex rest
    else
      ostIndex :: streamMappingAux (ostIndex + 1) rest

/-- The full `stream_mapping` vector, with `ost_index` starting at 0. -/
def stream_mapping (streams : List MediaType) : List ℤ :=
  streamMappingAux 0 streams

/-- Number of carried (video) streams. -/
def countVideo (streams : List MediaType) : ℕ :=
  streams.countP (· = MediaType.Video)

lemma streamMappingAux_cons_video (n : ℤ) (rest : List MediaType) :
    streamMappingAux n (MediaType.Video :: rest) = n :: streamMappingAux (n + 1) rest := by
  simp only [streamMappingAux]
  rw [if_neg (fun h => h rfl)]

lemma streamMappingAux_cons_nonvideo (n : ℤ) {m : MediaType}
    (hm : m ≠ MediaType.Video) (rest : List MediaType) :
    streamMappingAux n (m :: rest) = -1 :: streamMappingAux n rest := by
  simp only [streamMappingAux]
  rw [if_pos hm]

lemma streamMappingAux_length (n : ℤ) (l : List MediaType) :
    (streamMappingAux n l).length = l.length := by
  induction l generalizing n with
  | nil => rfl
  | cons m rest ih =>
    by_cases hm : m = MediaType.Video
    · subst hm
      rw [streamMappingAux_cons_video]
      simp [ih]
    · rw [streamMappingAux_cons_nonvideo n hm]
      simp [ih]

lemma streamMappingAux_skip (n : ℤ) (hn : 0 ≤ n) (l : List MediaType) (i : ℕ)
    (hi : i < l.length) :
    ((streamMappingAux n l).getD i 0 = -1 ↔
      l.getD i MediaType.Other ≠ MediaType.Video) := by
  induction l generalizing n i with
  | nil => simp at hi
  | cons m rest ih =>
    cases i with
    | zero =>
      by_cases hm : m = MediaType.Video
      · subst hm
        rw [streamMappingAux_cons_video]
        simp only [List.getD_cons_zero]
        constructor
        · intro h; omega
        · intro h; exact absurd rfl h
      · rw [streamMappingAux_cons_nonvideo n hm]
        simp [hm]
    | succ i =>
      simp only [List.length_cons, Nat.succ_lt_succ_iff] at hi
      by_cases hm : m = MediaType.Video
      · subst hm
        rw [streamMappingAux_cons_video]
        simp only [List.getD_cons_succ]
        exact ih (n + 1) (by omega) i hi
      · rw [streamMappingAux_cons_nonvideo n hm]
        simp only [List.getD_cons_succ]
        exact ih n hn i hi

lemma streamMappingAux_filter (n : ℕ) (l : List MediaType) :
    (streamMappingAux (n : ℤ) l).filter (fun x => x ≠ -1) =
      (List.range' n (countVideo l)).map Int.ofNat := by
  induction l generalizing n with
  | nil => rfl
  | cons m rest ih =>
    by_cases hm : m = MediaType.Video
    · subst hm
      have hcast : ((n : ℤ) + 1) = ((n + 1 : ℕ) : ℤ) := by push_cast; ring
      have hcount : countVideo (MediaType.Video :: rest) = countVideo rest + 1 := by
        simp [countVideo, List.countP_cons]
      have hne : ¬((n : ℤ) = -1) := by omega
      rw [hcount, List.range'_succ, List.map_cons, streamMappingAux_cons_video,
        List.filter_cons_of_pos (by simp [hne]), hcast, ih]
      rfl
    · have hcount : countVideo (m :: rest) = countVideo rest := by
        simp [countVideo, List.countP_cons, hm]
      rw [hcount, streamMappingAux_cons_nonvideo _ hm,
        List.filter_cons_of_neg (by simp), ih]

/-- Claim C6: the `stream_mapping` built by the orchestrator has one
entry per input stream; an entry is the skip sentinel `-1` exactly when
that input stream is not a video stream; and the non-skip entries, in
input order, are exactly the dense output ordinals `0, 1, …, k-1` for
the `k` video streams. -/
theorem c6_stream_mapping_dense (streams : List MediaType) :
    (stream_mapping streams).length = streams.length ∧
    (∀ i : ℕ, i < streams.length →
      ((stream_mapping streams).getD i 0 = -1 ↔
        streams.getD i MediaType.Other ≠ MediaType.Video)) ∧
    (stream_mapping streams).filter (fun x => x ≠ -1) =
      (List.range (countVideo streams)).map Int.ofNat := by
  refine ⟨streamMappingAux_length 0 streams,
    fun i hi => streamMappingAux_skip 0 le_rfl streams i hi, ?_⟩
  have h := streamMappingAux_filter 0 streams
  rw [List.range_eq_range']
  simpa using h

/-- Witness for `c6_stream_mapping_dense` on the concrete input
`[Audio, Video, Subtitle, Video]`. -/
theorem c6_stream_mapping_dense_witness :
    ((stream_mapping [MediaType.Audio, MediaType.Video, MediaType.Subtitle,
        MediaType.Video]).getD 0 0 = -1 ↔
      [MediaType.Audio, MediaType.Video, MediaType.Subtitle,
        MediaType.Video].getD 0 MediaType.Other ≠ MediaType.Video) ∧
    (stream_mapping [MediaType.Audio, MediaType.Video, MediaType.Subtitle,
        MediaType.Video]).filter (fun x => x ≠ -1) =
      (List.range (countVideo [MediaType.Audio, MediaType.Video,
        MediaType.Subtitle, MediaType.Video])).map Int.ofNat :=
  ⟨(c6_stream_mapping_dense _).2.1 0 (by decide),
    (c6_stream_mapping_dense _).2.2⟩

/-! ## Claim C7: rename failure handling after a Process run -/

/-- Post-run output disposition of `ffmpeg_encoder` (`src/encoder.rs`
lines 133–150) with the filesystem call abstracted by its outcome
`renameResult`: in `Process` mode, when the first transcoder reports a
recognized id, `std::fs::rename(&output_file, &new_output_file)` is
invoked and its result is propagated by the `?` operator as the return
value of `ffmpeg_encoder`; with no recognized id (or in Watermark mode)
nothing happens and the run returns `Ok(())`. -/
def postRunDisposition (mode : Mode) (recognizedId : Option String)
    (renameResult : Except String Unit) : Except String Unit :=
  if mode = Mode.Process then
    match recognizedId with
    | some _ =>
      match renameResult with
      | Except.error e => Except.error e
      | Except.ok _ => Except.ok ()
    | none => Except.ok ()
  else
    Except.ok ()

/-- Claim C7, as stated, is false: when the post-run rename fails, the
`?` operator on `std::fs::rename` propagates the error, so
`ffmpeg_encoder` returns that error rather than success. -/
theorem c7_rename_failure_counterexample :
    postRunDisposition Mode.Process (some "7") (Except.error "permission denied") =
      Except.error "permission denied" ∧
    postRunDisposition Mode.Process (some "7") (Except.error "permission denied") ≠
      Except.ok () := by
  refine ⟨rfl, fun hcontra => ?_⟩
  rw [show postRunDisposition Mode.Process (some "7")
        (Except.error "permission denied") =
      Except.error "permission denied" from rfl] at hcontra
  exact Except.noConfusion hcontra

/-- Claim C7, amended: a failing post-run rename is fatal to the run's
return value — `ffmpeg_encoder` returns exactly the rename error (the
already-produced output file is simply left on disk; the code performs
no cleanup).  When no id was recognized, or in Watermark mode, the run
returns success regardless of the filesystem. -/
theorem c7_rename_failure_amended (e id : String) (r : Except String Unit) :
    postRunDisposition Mode.Process (some id) (Except.error e) = Except.error e ∧
    postRunDisposition Mode.Process none r = Except.ok () ∧
    postRunDisposition Mode.Watermark (some id) r = Except.ok () :=
  ⟨rfl, rfl, rfl⟩

/-! ## Claim C8: throttled progress logging -/

/-- Throttled progress logger `Transcoder::log_progress`
(`src/transcoder.rs` lines 319–332).  The wall clock is exogenous: the
seconds elapsed since `last_log_time` (`as_secs_f64()`) enter as the
exact-rational argument `elapsed`.  Returns whether a progress line is
emitted, paired with the updated `last_log_frame_count` (on emission the
code also resets `last_log_time`; on the early return both are left
untouched). -/
def log_progress (loggingEnabled : Bool) (frameCount lastLogFrameCount : ℕ)
    (elapsed : ℚ) : Bool × ℕ :=
  if !loggingEnabled ||
      (decide (frameCount - lastLogFrameCount < 100) && decide (elapsed < 1)) then
    (false, lastLogFrameCount)
  else
    (true, frameCount)

/-- Claim C8, as stated, is false: with logging enabled, only 5 frames
since the last log but 2 seconds elapsed, the code emits a line (its
guard is a conjunction of the two "too soon" conditions, i.e. it logs on
the disjunction), while the claim's AND condition says no line may be
emitted before 100 frames have passed. -/
theorem c8_log_conjunction_counterexample :
    (log_progress true 5 0 2).1 = true ∧ ¬(100 ≤ 5 - 0 ∧ (1 : ℚ) ≤ 2) := by
  constructor
  · rfl
  · rintro ⟨h, -⟩
    omega

/-- Claim C8, amended: with logging enabled, a progress line is emitted
if and only if at least 100 frames have elapsed since the last log OR at
least 1 wall-clock second has elapsed (disjunction, not conjunction);
on emission `last_log_frame_count` becomes the current frame count, and
otherwise the logging state is unchanged. -/
theorem c8_log_progress_amended (en : Bool) (fc ll : ℕ) (e : ℚ) :
    ((log_progress en fc ll e).1 = true ↔
      (en = true ∧ (100 ≤ fc - ll ∨ 1 ≤ e))) ∧
    (log_progress en fc ll e).2 = (if (log_progress en fc ll e).1 then fc else ll) := by
  cases en with
  | false => simp [log_progress]
  | true =>
    by_cases h1 : fc - ll < 100 <;> by_cases h2 : e < 1 <;>
      simp [log_progress, h1, h2, not_lt.mp, le_of_not_lt]

/-! ## Claim C9: overlay band height vs recognition crop height -/

/-- Overlay band height of the watermark filter (`src/transcoder.rs`
line 133): `(decoder.height() as f32 / 15.0).round() as i32`, modelled
over exact rationals: `h/15` rounded to the nearest integer.
(`f32::round` rounds halves away from zero; for `h/15` a tie never
arises because 15 is odd, so Mathlib's round-half-up agrees.) -/
def text_height (h : ℕ) : ℤ :=
  round ((h : ℚ) / 15)

/-- Recognition crop band height (`src/transcoder.rs` line 245):
`(image.height() as f32 / 15f32) as u32` — the `as u32` cast truncates
toward zero, i.e. takes the floor of the nonnegative value `h/15`. -/
def cropHeight (h : ℕ) : ℕ :=
  (⌊(h : ℚ) / 15⌋).toNat

lemma cropHeight_eq_div (h : ℕ) : cropHeight h = h / 15 := by
  have h15 : ((15 : ℚ)) = ((15 : ℕ) : ℚ) := by norm_num
  rw [cropHeight, Int.floor_toNat, h15, Nat.floor_div_eq_div]

lemma text_height_eq_div (h : ℕ) : text_height h = ((h + 7) / 15 : ℕ) := by
  rw [text_height, round_eq]
  have h1 : (h : ℚ) / 15 + 1 / 2 = ((2 * h + 15 : ℕ) : ℚ) / ((30 : ℕ) : ℚ) := by
    push_cast
    ring
  rw [h1, ← Int.natCast_floor_eq_floor (by positivity), Nat.floor_div_eq_div]
  have h2 : (2 * h + 15) / 30 = (h + 7) / 15 := by omega
  rw [h2]

/-- Claim C9, as stated, is false: at frame height 100 the overlay
variant draws a band of `round(100/15) = 7` pixels while the
recognition variant crops `trunc(100/15) = 6` pixels — the two variants
round `h/15` differently. -/
theorem c9_band_height_counterexample :
    text_height 100 = 7 ∧ cropHeight 100 = 6 ∧
      (cropHeight 100 : ℤ) ≠ text_height 100 := by
  rw [text_height_eq_div, cropHeight_eq_div]
  refine ⟨rfl, rfl, ?_⟩
  decide

/-- Claim C9, amended: both band heights are `h/15` converted to whole
pixels, but the overlay variant rounds to the nearest integer
(`text_height h = (h+7)/15` in integer arithmetic) while the
recognition variant truncates (`cropHeight h = h/15`); the two agree
exactly when the fractional part of `h/15` is below one half, i.e. when
`h % 15 ≤ 7` (in particular whenever 15 divides `h`, such as the common
heights 720 and 1080). -/
theorem c9_band_height_amended (h : ℕ) :
    cropHeight h = h / 15 ∧
    text_height h = ((h + 7) / 15 : ℕ) ∧
    ((cropHeight h : ℤ) = text_height h ↔ h % 15 ≤ 7) := by
  refine ⟨cropHeight_eq_div h, text_height_eq_div h, ?_⟩
  rw [cropHeight_eq_div, text_height_eq_div]
  omega

/-! ## Claim C2: cancellation polling and the flush sequence -/

/-- One event of the `ffmpeg_encoder` run after the header write. -/
inductive Event where
  | processPacket (istIndex : ℕ)
  | sendEofToDecoder (istIndex : ℕ)
  | drainDecoder (istIndex : ℕ)
  | sendEofToEncoder (istIndex : ℕ)
  | drainEncoder (istIndex : ℕ)
  | writeTrailer
deriving DecidableEq, Repr

/-- Main packet loop of `ffmpeg_encoder` (`src/encoder.rs` lines
100–118) over the packets' input-stream indices, with the crossbeam
channel as a FIFO queue.  A packet whose `stream_mapping` entry is
negative is skipped by `continue` — without polling the channel.  For a
carried packet, the transcoder processes it, then `try_recv` polls the
channel once: `Ok("stop")` breaks the loop; any other received value is
matched by the `_ => {}` arm, i.e. consumed and discarded, and the loop
continues, as it does when the channel is empty.  Returns the processed
indices in order, and the remaining queue. -/
def mainLoop (mapping : List ℤ) : List ℕ → List String → List ℕ × List String
  | [], queue => ([], queue)
  | p :: ps, queue =>
    if mapping.getD p (-1) < 0 then
      mainLoop mapping ps queue
    else
      match queue with
      | [] =>
        let r := mainLoop mapping ps []
        (p :: r.1, r.2)
      | v :: rest =>
        if v = "stop" then
          ([p], rest)
        else
          let r := mainLoop mapping ps rest
          (p :: r.1, r.2)

/-- Flush sequence for one stream transcoder (`src/encoder.rs` lines
123–129): decoder EOF, decoder drain, encoder EOF, encoder drain. -/
def flushEvents (istIndex : ℕ) : List Event :=
  [Event.sendEofToDecoder istIndex, Event.drainDecoder istIndex,
    Event.sendEofToEncoder istIndex, Event.drainEncoder istIndex]

/-- Whole-run event trace of `ffmpeg_encoder` after the header write:
the main loop (lines 100–118), then — on the straight-line path, however
the loop ended — the flush loop over every stream transcoder (lines
123–129) and `write_trailer` (line 131). -/
def ffmpegEncoderTrace (mapping : List ℤ) (packets : List ℕ)
    (queue : List String) (streams : List ℕ) : List Event :=
  ((mainLoop mapping packets queue).1.map Event.processPacket) ++
    streams.flatMap flushEvents ++ [Event.writeTrailer]

/-- Claim C2's first half, as stated, is false: a received value other
than the exact message `"stop"` does not stop the loop.  With one
carried stream, two packets and the single queued value `"go"`, the
value is consumed from the channel, yet both packets are processed
(the claim predicts the loop stops after the first). -/
theorem c2_any_value_stops_counterexample :
    (mainLoop [0] [0, 0] ["go"]).1 = [0, 0] ∧
    (mainLoop [0] [0, 0] ["go"]).2 = [] ∧
    (mainLoop [0] [0, 0] ["go"]).1 ≠ [0] := by
  decide

/-- Claim C2, amended: only the exact value `"stop"` received from the
channel stops the main loop (after finishing the current packet); any
other received value is consumed and ignored and the loop continues
exactly as it would have with the rest of the queue; and for every
outcome of the loop — exhaustion or stop — the run's trace still ends
with the full flush sequence for every stream transcoder followed by
the trailer write. -/
theorem c2_stop_semantics_amended (mapping : List ℤ) (p : ℕ) (ps : List ℕ)
    (v : String) (q : List String) (streams : List ℕ)
    (hp : 0 ≤ mapping.getD p (-1)) (hv : v ≠ "stop") :
    (mainLoop mapping (p :: ps) ("stop" :: q)).1 = [p] ∧
    (mainLoop mapping (p :: ps) (v :: q)).1 = p :: (mainLoop mapping ps q).1 ∧
    (∀ (packets : List ℕ) (queue : List String), ∃ processed,
      ffmpegEncoderTrace mapping packets queue streams =
        processed ++ streams.flatMap flushEvents ++ [Event.writeTrailer]) := by
  have hskip : ¬(mapping.getD p (-1) < 0) := not_lt.mpr hp
  refine ⟨?_, ?_, ?_⟩
  · rw [mainLoop, if_neg hskip]
    simp
  · rw [mainLoop, if_neg hskip]
    simp [hv]
  · intro packets queue
    exact ⟨(mainLoop mapping packets queue).1.map Event.processPacket, rfl⟩

/-- Witness for `c2_stop_semantics_amended`: one carried stream, the
non-stop value `"go"` at the head of the queue. -/
theorem c2_stop_semantics_amended_witness :
    (mainLoop [0] [0, 0] ["stop"]).1 = [0] ∧
    (mainLoop [0] [0, 0] ["go"]).1 = 0 :: (mainLoop [0] [0] []).1 ∧
    (∀ (packets : List ℕ) (queue : List String), ∃ processed,
      ffmpegEncoderTrace [0] packets queue [0] =
        processed ++ [0].flatMap flushEvents ++ [Event.writeTrailer]) := by
  have h := c2_stop_semantics_amended [0] 0 [0] "go" [] [0]
    (by decide) (by decide)
  exact ⟨h.1, h.2.1, h.2.2⟩

/-! ## The frame-number pattern `(?<id>[0-9]{1,3})-(?<time>[0-9]{1,13})` -/

/-- Attempt to match exactly `k` digits followed by the literal `-` at
the head of `l`; on success return the digit block and what follows the
hyphen.  One backtracking step of the greedy `{1,3}` id group. -/
def tryIdLen (k : ℕ) (l : List Char) : Option (List Char × List Char) :=
  if (l.take k).length = k ∧ (l.take k).all Char.isDigit then
    match l.drop k with
    | '-' :: afterDash => some (l.take k, afterDash)
    | _ => none
  else
    none

/-- Greedy `[0-9]{1,13}` with nothing after it in the pattern: take as
many leading digits as available, capped at `n`. -/
def takeDigitsUpTo : ℕ → List Char → List Char
  | 0, _ => []
  | _, [] => []
  | n + 1, c :: rest => if c.isDigit then c :: takeDigitsUpTo n rest else []

/-- The pattern `(?<id>[0-9]{1,3})-(?<time>[0-9]{1,13})` of
`Transcoder::new` (`src/transcoder.rs` line 190) anchored at the current
position: the greedy id group tries length 3, then 2, then 1; after the
hyphen the time group takes up to 13 digits and needs at least one.
Returns the `(id, time)` captures. -/
def matchAt (l : List Char) : Option (List Char × List Char) :=
  match tryIdLen 3 l <|> tryIdLen 2 l <|> tryIdLen 1 l with
  | none => none
  | some (idPart, afterDash) =>
    match takeDigitsUpTo 13 afterDash with
    | [] => none
    | t => some (idPart, t)

/-- `Regex::captures` with leftmost-match semantics: try each start
position from the left. -/
def frameReCaptures : List Char → Option (List Char × List Char)
  | [] => none
  | c :: rest =>
    match matchAt (c :: rest) with
    | some r => some r
    | none => frameReCaptures rest

/-- Numeric value of a digit string — what `str::parse` returns on the
digit-only captures (`c["id"].parse()`, `c["time"].parse()`). -/
def digitsToNat (l : List Char) : ℕ :=
  l.foldl (fun acc c => 10 * acc + (c.toNat - '0'.toNat)) 0

/-- `str::trim`: strip leading and trailing whitespace. -/
def trimChars (l : List Char) : List Char :=
  ((l.dropWhile Char.isWhitespace).reverse.dropWhile Char.isWhitespace).reverse

/-- One decoded frame in Recognize mode
(`Transcoder::receive_and_process_decoded_frames`, `src/transcoder.rs`
lines 258–283), given the text the OCR collaborator returned for the
cropped band: on a regex match, the parsed id and millisecond captures
are used to rewrite the frame's PTS and the frame is sent to the encoder
(represented by the singleton emission list carrying the parsed values);
on no match, the failure counter is incremented and nothing is emitted. -/
def recognizeFrameStep (failedFrames : ℕ) (ocrText : List Char) :
    ℕ × List (ℕ × ℕ) :=
  match frameReCaptures (trimChars ocrText) with
  | some (idCapture, timeCapture) =>
    (failedFrames, [(digitsToNat idCapture, digitsToNat timeCapture)])
  | none => (failedFrames + 1, [])

/-- `let time: f64 = c["time"].parse().unwrap_or(0.) / 1000.` in exact
arithmetic: the millisecond capture converted to seconds. -/
def recognizedTime (ms : ℕ) : ℚ :=
  (ms : ℚ) / 1000

/-- Text drawn by the watermark overlay filter (`src/transcoder.rs`
lines 136–140): `'{id}-%\x7beif\:t*1000\:u\x7d'` — the id digits, a
hyphen, and the frame clock in whole milliseconds. -/
def overlayText (idDigits msDigits : List Char) : List Char :=
  idDigits ++ '-' :: msDigits

/-- Semantic content of "the text contains a match of the frame
pattern": somewhere in the text a digit is followed by a hyphen followed
by a digit (the weakest substring the pattern accepts, since both groups
may have length 1). -/
def HasDigitDashDigit (l : List Char) : Prop :=
  ∃ u v : List Char, ∃ d e : Char,
    l = u ++ d :: '-' :: e :: v ∧ d.isDigit = true ∧ e.isDigit = true

/-! ## Lemmas about trimming and the frame matcher -/

lemma dropWhile_eq_self_of_forall {p : Char → Bool} {l : List Char}
    (h : ∀ c ∈ l, p c = false) : l.dropWhile p = l := by
  cases l with
  | nil => rfl
  | cons c rest => simp [List.dropWhile_cons, h c (List.mem_cons_self _ _)]

lemma trimChars_eq_self {l : List Char} (h : ∀ c ∈ l, c.isWhitespace = false) :
    trimChars l = l := by
  rw [trimChars, dropWhile_eq_self_of_forall h,
    dropWhile_eq_self_of_forall fun c hc => h c (List.mem_reverse.mp hc),
    List.reverse_reverse]

lemma not_ws_of_isDigit {c : Char} (h : c.isDigit = true) :
    c.isWhitespace = false := by
  cases hb : c.isWhitespace with
  | false => rfl
  | true =>
    exfalso
    simp [Char.isWhitespace] at hb
    rcases hb with ((rfl | rfl) | rfl) | rfl <;> exact absurd h (by decide)

lemma takeDigitsUpTo_eq_self :
    ∀ {l : List Char} {n : ℕ}, l.all Char.isDigit = true → l.length ≤ n →
      takeDigitsUpTo n l = l := by
  intro l
  induction l with
  | nil => intro n _ _; cases n <;> rfl
  | cons c rest ih =>
    intro n hall hlen
    rw [List.all_cons, Bool.and_eq_true] at hall
    cases n with
    | zero => simp at hlen
    | succ m =>
      rw [takeDigitsUpTo, if_pos hall.1, ih hall.2 (by simpa using hlen)]

lemma tryIdLen_exact (idd rest : List Char) (hd : idd.all Char.isDigit = true) :
    tryIdLen idd.length (idd ++ '-' :: rest) = some (idd, rest) := by
  have ht : (idd ++ '-' :: rest).take idd.length = idd := List.take_left idd _
  have hdr : (idd ++ '-' :: rest).drop idd.length = '-' :: rest := List.drop_left idd _
  rw [tryIdLen, if_pos ⟨by rw [ht], by rw [ht]; exact hd⟩, hdr]
  rw [ht]
  rfl

lemma tryIdLen_sound {k : ℕ} {l x after : List Char} (hk : 1 ≤ k)
    (h : tryIdLen k l = some (x, after)) :
    l = x ++ '-' :: after ∧ x ≠ [] ∧ x.all Char.isDigit = true ∧
      x.length = k := by
  rw [tryIdLen] at h
  by_cases hc : (l.take k).length = k ∧ (l.take k).all Char.isDigit = true
  · rw [if_pos hc] at h
    split at h
    · next afterDash heq =>
      simp only [Option.some.injEq, Prod.mk.injEq] at h
      obtain ⟨rfl, rfl⟩ := h
      refine ⟨?_, ?_, hc.2, hc.1⟩
      · conv_lhs => rw [← List.take_append_drop k l]
        rw [heq]
      · intro hnil
        rw [hnil] at hc
        simp at hc
        omega
    · simp at h
  · rw [if_neg hc] at h
    simp at h

lemma orElse3_eq_some {α : Type} {a b c : Option α} {v : α}
    (h : (a <|> b <|> c) = some v) :
    a = some v ∨ b = some v ∨ c = some v := by
  rcases ha : a with _ | x
  · rcases hb : b with _ | y
    · right; right
      rw [ha, hb] at h
      simpa using h
    · right; left
      rw [ha, hb] at h
      simpa using h
  · left
    rw [ha] at h
    simpa using h

lemma head_digit_of_takeDigitsUpTo_ne_nil {n : ℕ} {l : List Char}
    (h : takeDigitsUpTo n l ≠ []) :
    ∃ e v, l = e :: v ∧ e.isDigit = true := by
  cases n with
  | zero => simp [takeDigitsUpTo] at h
  | succ m =>
    cases l with
    | nil => simp [takeDigitsUpTo] at h
    | cons c rest =>
      refine ⟨c, rest, rfl, ?_⟩
      by_contra hc
      rw [takeDigitsUpTo, if_neg hc] at h
      exact h rfl

lemma hasDigitDashDigit_construct {l idc : List Char} {e : Char} {v : List Char}
    (hl : l = idc ++ '-' :: e :: v) (hne : idc ≠ [])
    (hdig : idc.all Char.isDigit = true) (he : e.isDigit = true) :
    HasDigitDashDigit l := by
  rcases List.eq_nil_or_concat idc with rfl | ⟨u, d, rfl⟩
  · exact absurd rfl hne
  · refine ⟨u, v, d, e, ?_, ?_, he⟩
    · rw [hl]
      simp
    · exact List.all_eq_true.mp hdig d (by simp)

lemma matchAt_sound {l x t : List Char} (h : matchAt l = some (x, t)) :
    HasDigitDashDigit l := by
  rw [matchAt] at h
  rcases h3 : (tryIdLen 3 l <|> tryIdLen 2 l <|> tryIdLen 1 l) with _ | ⟨idc, after⟩
  · rw [h3] at h
    simp at h
  · rw [h3] at h
    have h' : (match takeDigitsUpTo 13 after with
        | [] => none
        | t' => some (idc, t')) = some (x, t) := h
    have hne : takeDigitsUpTo 13 after ≠ [] := by
      intro hnil
      rw [hnil] at h'
      simp at h'
    obtain ⟨e, v, rfl, he⟩ := head_digit_of_takeDigitsUpTo_ne_nil hne
    rcases orElse3_eq_some h3 with hk | hk | hk <;>
    · obtain ⟨hl, hne', hdig, -⟩ := tryIdLen_sound (by omega) hk
      exact hasDigitDashDigit_construct hl hne' hdig he

lemma matchAt_start (d e : Char) (v : List Char) (hd : d.isDigit = true)
    (he : e.isDigit = true) : (matchAt (d :: '-' :: e :: v)).isSome = true := by
  have hdash : ('-' : Char).isDigit = false := by decide
  have h3 : tryIdLen 3 (d :: '-' :: e :: v) = none := by
    rw [tryIdLen, if_neg]
    rintro ⟨-, hall⟩
    rw [show (d :: '-' :: e :: v).take 3 = [d, '-', e] from rfl] at hall
    simp [List.all_cons, hdash] at hall
  have h2 : tryIdLen 2 (d :: '-' :: e :: v) = none := by
    rw [tryIdLen, if_neg]
    rintro ⟨-, hall⟩
    rw [show (d :: '-' :: e :: v).take 2 = [d, '-'] from rfl] at hall
    simp [List.all_cons, hdash] at hall
  have h1 : tryIdLen 1 (d :: '-' :: e :: v) = some ([d], e :: v) := by
    have := tryIdLen_exact [d] (e :: v) (by simp [hd])
    simpa using this
  rw [matchAt, h3, h2, h1]
  simp only [Option.none_orElse]
  rw [takeDigitsUpTo, if_pos he]
  rfl

lemma frameReCaptures_sound :
    ∀ {l : List Char}, (frameReCaptures l).isSome = true → HasDigitDashDigit l := by
  intro l
  induction l with
  | nil => intro h; simp [frameReCaptures] at h
  | cons c rest ih =>
    intro h
    rw [frameReCaptures] at h
    rcases hm : matchAt (c :: rest) with _ | r
    · rw [hm] at h
      obtain ⟨u, v, d, e, hl, hd, he⟩ := ih (by simpa using h)
      exact ⟨c :: u, v, d, e, by simp [hl], hd, he⟩
    · exact matchAt_sound hm

lemma frameReCaptures_complete :
    ∀ {l : List Char}, HasDigitDashDigit l → (frameReCaptures l).isSome = true := by
  rintro l ⟨u, v, d, e, rfl, hd, he⟩
  induction u with
  | nil =>
    rw [List.nil_append, frameReCaptures]
    rcases hm : matchAt (d :: '-' :: e :: v) with _ | r
    · exact absurd (matchAt_start d e v hd he) (by simp [hm])
    · simp [hm]
  | cons c u' ih =>
    rw [List.cons_append, frameReCaptures]
    rcases hm : matchAt (c :: (u' ++ d :: '-' :: e :: v)) with _ | r
    · simpa [hm] using ih
    · simp [hm]

/-- The frame regex finds a match in the text exactly when the text
contains a digit, a hyphen and a digit in immediate succession. -/
lemma frameReCaptures_isSome_iff (l : List Char) :
    (frameReCaptures l).isSome = true ↔ HasDigitDashDigit l :=
  ⟨frameReCaptures_sound, frameReCaptures_complete⟩

lemma matchAt_overlay {idd ms : List Char} (h1 : idd ≠ []) (h3 : idd.length ≤ 3)
    (hd : idd.all Char.isDigit = true) (hm1 : ms ≠ []) (hm13 : ms.length ≤ 13)
    (hmd : ms.all Char.isDigit = true) :
    matchAt (idd ++ '-' :: ms) = some (idd, ms) := by
  have hdash : ('-' : Char).isDigit = false := by decide
  have htake : takeDigitsUpTo 13 ms = ms := takeDigitsUpTo_eq_self hmd hm13
  have hor : (tryIdLen 3 (idd ++ '-' :: ms) <|> tryIdLen 2 (idd ++ '-' :: ms) <|>
      tryIdLen 1 (idd ++ '-' :: ms)) = some (idd, ms) := by
    rcases idd with - | ⟨a, - | ⟨b, - | ⟨c, - | ⟨d, tl⟩⟩⟩⟩
    · exact absurd rfl h1
    · rw [List.all_cons] at hd
      have ht1 : tryIdLen 1 ([a] ++ '-' :: ms) = some ([a], ms) := by
        have := tryIdLen_exact [a] ms (by simpa using hd)
        simpa using this
      have ht3 : tryIdLen 3 ([a] ++ '-' :: ms) = none := by
        rw [tryIdLen, if_neg]
        rintro ⟨-, hall⟩
        rw [show ([a] ++ '-' :: ms).take 3 = a :: '-' :: ms.take 1 from rfl] at hall
        simp [List.all_cons, hdash] at hall
      have ht2 : tryIdLen 2 ([a] ++ '-' :: ms) = none := by
        rw [tryIdLen, if_neg]
        rintro ⟨-, hall⟩
        rw [show ([a] ++ '-' :: ms).take 2 = [a, '-'] from rfl] at hall
        simp [List.all_cons, hdash] at hall
      rw [ht3, ht2, ht1]
      rfl
    · have ht2 : tryIdLen 2 ([a, b] ++ '-' :: ms) = some ([a, b], ms) := by
        have := tryIdLen_exact [a, b] ms hd
        simpa using this
      have ht3 : tryIdLen 3 ([a, b] ++ '-' :: ms) = none := by
        rw [tryIdLen, if_neg]
        rintro ⟨-, hall⟩
        rw [show ([a, b] ++ '-' :: ms).take 3 = [a, b, '-'] from rfl] at hall
        simp [List.all_cons, hdash] at hall
      rw [ht3, ht2]
      rfl
    · have ht3 : tryIdLen 3 ([a, b, c] ++ '-' :: ms) = some ([a, b, c], ms) := by
        have := tryIdLen_exact [a, b, c] ms hd
        simpa using this
      rw [ht3]
      rfl
    · simp at h3
  obtain ⟨m, ms', rfl⟩ := List.exists_cons_of_ne_nil hm1
  rw [matchAt, hor]
  have hfin : (match takeDigitsUpTo 13 (m :: ms') with
      | [] => none
      | t => some (idd, t)) = some (idd, m :: ms') := by
    rw [htake]
  exact hfin

/-! ## Claim C3: per-frame recognition failure policy -/

/-- Claim C3: in Recognize mode, for every decoded frame whose (trimmed)
OCR text contains no match of the `<id>-<ms>` pattern, the transcoder
increments its failure counter by exactly 1 and sends nothing to the
encoder; for every frame whose text does match, the failure counter is
unchanged (and exactly one frame is forwarded). -/
theorem c3_recognition_failure_policy (failed : ℕ) (ocrText : List Char) :
    (¬ HasDigitDashDigit (trimChars ocrText) →
      recognizeFrameStep failed ocrText = (failed + 1, [])) ∧
    (HasDigitDashDigit (trimChars ocrText) →
      (recognizeFrameStep failed ocrText).1 = failed ∧
      (recognizeFrameStep failed ocrText).2.length = 1) := by
  constructor
  · intro h
    have hnone : frameReCaptures (trimChars ocrText) = none := by
      rcases hm : frameReCaptures (trimChars ocrText) with - | r
      · rfl
      · exact absurd ((frameReCaptures_isSome_iff _).mp (by simp [hm])) h
    simp [recognizeFrameStep, hnone]
  · intro h
    have hsome := (frameReCaptures_isSome_iff _).mpr h
    rcases hm : frameReCaptures (trimChars ocrText) with - | ⟨idc, tc⟩
    · rw [hm] at hsome
      simp at hsome
    · simp [recognizeFrameStep, hm]

/-- Witness for `c3_recognition_failure_policy`: the unmatchable text
`"x"` increments the counter from 5 to 6 with no emission; the matching
text `"7-1"` leaves it at 5 and emits exactly one frame. -/
theorem c3_recognition_failure_policy_witness :
    recognizeFrameStep 5 ['x'] = (5 + 1, []) ∧
    ((recognizeFrameStep 5 ['7', '-', '1']).1 = 5 ∧
      (recognizeFrameStep 5 ['7', '-', '1']).2.length = 1) :=
  ⟨(c3_recognition_failure_policy 5 ['x']).1 (fun hd =>
      absurd ((frameReCaptures_isSome_iff _).mpr hd) (by decide)),
    (c3_recognition_failure_policy 5 ['7', '-', '1']).2
      ((frameReCaptures_isSome_iff _).mp (by decide))⟩

/-! ## Claim C4: overlay/recognition round trip -/

/-- Claim C4: for every id of 1–3 digits and millisecond value of 1–13
digits, the overlay text `<id>-<ms>`, fed to the recognition parse path,
matches the pattern with captures exactly the id and millisecond digit
blocks: the frame is forwarded (no failure increment) carrying the
integer values of the two captures, and the recognized time is the
millisecond capture divided by 1000. -/
theorem c4_overlay_roundtrip (failed : ℕ) (idDigits msDigits : List Char)
    (h1 : idDigits ≠ []) (h3 : idDigits.length ≤ 3)
    (hd : idDigits.all Char.isDigit = true)
    (hm1 : msDigits ≠ []) (hm13 : msDigits.length ≤ 13)
    (hmd : msDigits.all Char.isDigit = true) :
    recognizeFrameStep failed (overlayText idDigits msDigits) =
      (failed, [(digitsToNat idDigits, digitsToNat msDigits)]) ∧
    recognizedTime (digitsToNat msDigits) = (digitsToNat msDigits : ℚ) / 1000 := by
  have hnws : ∀ c ∈ overlayText idDigits msDigits, c.isWhitespace = false := by
    intro c hc
    rw [overlayText] at hc
    rcases List.mem_append.mp hc with hcl | hcr
    · exact not_ws_of_isDigit (List.all_eq_true.mp hd c hcl)
    · rcases List.mem_cons.mp hcr with rfl | hcm
      · decide
      · exact not_ws_of_isDigit (List.all_eq_true.mp hmd c hcm)
  have htrim : trimChars (overlayText idDigits msDigits) =
      overlayText idDigits msDigits := trimChars_eq_self hnws
  have hfr : frameReCaptures (overlayText idDigits msDigits) =
      some (idDigits, msDigits) := by
    have hma := matchAt_overlay h1 h3 hd hm1 hm13 hmd
    obtain ⟨a, idd', rfl⟩ := List.exists_cons_of_ne_nil h1
    rw [List.cons_append] at hma
    rw [overlayText, List.cons_append, frameReCaptures, hma]
  refine ⟨?_, rfl⟩
  rw [recognizeFrameStep, htrim, hfr]

/-- Witness for `c4_overlay_roundtrip`: the claim's example, stamping
`id = 7`, `t = 1234 ms`. -/
theorem c4_overlay_roundtrip_witness :
    recognizeFrameStep 5 (overlayText ['7'] ['1', '2', '3', '4']) =
      (5, [(digitsToNat ['7'], digitsToNat ['1', '2', '3', '4'])]) ∧
    digitsToNat ['7'] = 7 ∧ digitsToNat ['1', '2', '3', '4'] = 1234 ∧
    recognizedTime 1234 = 1234 / 1000 :=
  ⟨(c4_overlay_roundtrip 5 ['7'] ['1', '2', '3', '4'] (by decide) (by decide)
      (by decide) (by decide) (by decide) (by decide)).1,
    by decide, by decide, by norm_num [recognizedTime]⟩

/-! ## Claim C5: first-seen recognized id and output disposition -/

/-- Modelled from the spec: the Transcoder's retained recognized id.
`src/encoder.rs` line 135 reads `transcoder.recognized_id()`, but the
`Transcoder` in this snapshot's `src/transcoder.rs` does not define that
accessor or its backing field, so the retention rule is modelled from
the spec (§3, §4.3): "the first one observed is retained as the
stream's identity for later output disposition"; "identity, once set,
is retained for the lifetime of the run and is never overwritten by a
later recognition (first-seen-wins)". -/
def updateRecognizedId (cur : Option ℕ) (frameResult : Option ℕ) : Option ℕ :=
  match cur with
  | some id => some id
  | none => frameResult

/-- The retained id after a run whose per-frame recognition results are
`results` (`some id` for a frame whose text was recognized, `none` for a
failed frame). -/
def recognizedIdAfter (results : List (Option ℕ)) : Option ℕ :=
  results.foldl updateRecognizedId none

/-- Matcher for the rename pattern `(\..+)$` (`src/encoder.rs` line
142): the leftmost dot whose entire remainder — nonempty and
newline-free — reaches the end of the string; returns the prefix before
the match. -/
def dotTailSplit : List Char → Option (List Char)
  | [] => none
  | c :: rest =>
    if c = '.' ∧ rest ≠ [] ∧ rest.all isDotChar then
      some []
    else
      match dotTailSplit rest with
      | some p => some (c :: p)
      | none => none

/-- Post-run rename target in Process mode (`src/encoder.rs` lines
141–147): `Regex::new(r"(\..+)$").replace(&input_file, format!(".\x7b\x7d.ivf", id))`
— the input path with everything from the leftmost qualifying dot
replaced by `.<id>.ivf`; with no match, `Regex::replace` leaves the path
unchanged. -/
def renameTarget (inputFile : String) (id : ℕ) : String :=
  match dotTailSplit inputFile.toList with
  | some p => String.mk p ++ "." ++ toString id ++ ".ivf"
  | none => inputFile

/-- Post-run disposition in Process mode (`src/encoder.rs` lines
133–150): when the transcoder retained an id, the output file is
renamed to `renameTarget`; otherwise nothing happens. -/
def processDisposition (inputFile : String) (results : List (Option ℕ)) :
    Option String :=
  match recognizedIdAfter results with
  | some id => some (renameTarget inputFile id)
  | none => none

lemma foldl_updateRecognizedId_some (i : ℕ) (l : List (Option ℕ)) :
    l.foldl updateRecognizedId (some i) = some i := by
  induction l with
  | nil => rfl
  | cons x l ih => simp [List.foldl_cons, updateRecognizedId, ih]

lemma foldl_updateRecognizedId_none {pre : List (Option ℕ)}
    (h : ∀ x ∈ pre, x = none) :
    pre.foldl updateRecognizedId none = none := by
  induction pre with
  | nil => rfl
  | cons x l ih =>
    rw [List.foldl_cons, h x (List.mem_cons_self _ _)]
    exact ih fun y hy => h y (List.mem_cons_of_mem _ hy)

/-- Claim C5: the retained identity is the id of the first Recognized
result of the run — results before it were all failures, and no later
result (the arbitrary `post`) ever overwrites it — and the post-run
disposition renames the output file using exactly this first-seen id. -/
theorem c5_first_seen_id_disposition (input : String)
    (pre post : List (Option ℕ)) (i : ℕ) (hpre : ∀ x ∈ pre, x = none) :
    recognizedIdAfter (pre ++ some i :: post) = some i ∧
    processDisposition input (pre ++ some i :: post) =
      some (renameTarget input i) := by
  have h1 : recognizedIdAfter (pre ++ some i :: post) = some i := by
    rw [recognizedIdAfter, List.foldl_append, foldl_updateRecognizedId_none hpre,
      List.foldl_cons]
    exact foldl_updateRecognizedId_some i post
  refine ⟨h1, ?_⟩
  rw [processDisposition, h1]

/-- Witness for `c5_first_seen_id_disposition`: two failed frames, then
id 7, then a later (ignored) recognition of 9; the output file for input
`clip.mp4` is renamed to `clip.7.ivf`. -/
theorem c5_first_seen_id_disposition_witness :
    (recognizedIdAfter ([none, none] ++ some 7 :: [some 9]) = some 7 ∧
      processDisposition "clip.mp4" ([none, none] ++ some 7 :: [some 9]) =
        some (renameTarget "clip.mp4" 7)) ∧
    renameTarget "clip.mp4" 7 = "clip.7.ivf" :=
  ⟨c5_first_seen_id_disposition "clip.mp4" [none, none] [some 9] 7 (by simp),
    by decide⟩

end WebrtcperfVmaf
